import Mathlib

/-!
# Verification of the gonc encryption/decryption pipeline

A shallow embedding of the core of the gonc command-line encryption tool:
the envelope codec, the deterministic chunk codec, the randomized
CTR+HMAC codec, the processor dispatch logic, the path-glob matcher, the
file resolver, and output-path derivation.

Bytes are modelled as natural numbers (values < 256 in well-formed data);
byte strings as lists.  External cryptographic primitives (AES-SIV via
Tink, AES-CTR, HMAC-SHA256, HKDF) are library code outside the
repository; they enter the embedding as explicit function parameters
together with the algebraic laws the code relies on (stated as
hypotheses and discharged on concrete instances in witnesses).
-/

namespace Gonc

/-- Decidable equality of results, used to evaluate the embedding on
concrete inputs. -/
instance instDecEqExcept {e a : Type} [DecidableEq e] [DecidableEq a] :
    DecidableEq (Except e a)
  | .error x, .error y =>
    if h : x = y then .isTrue (by rw [h]) else
      .isFalse (fun hc => by cases hc; exact h rfl)
  | .error _, .ok _ => .isFalse (fun hc => by cases hc)
  | .ok _, .error _ => .isFalse (fun hc => by cases hc)
  | .ok x, .ok y =>
    if h : x = y then .isTrue (by rw [h]) else
      .isFalse (fun hc => by cases hc; exact h rfl)

/-- Big-endian value of a byte list (most significant first). -/
def beVal (bs : List Nat) : Nat :=
  bs.foldl (fun acc b => acc * 256 + b) 0

/-- Big-endian 4-byte encoding of a number, as written by
binary.Write(w, binary.BigEndian, uint32(n)). -/
def u32be (n : Nat) : List Nat :=
  [n / 2 ^ 24 % 256, n / 2 ^ 16 % 256, n / 2 ^ 8 % 256, n % 256]

/-- Big-endian 8-byte encoding of a number (uint64). -/
def u64be (n : Nat) : List Nat :=
  [n / 2 ^ 56 % 256, n / 2 ^ 48 % 256, n / 2 ^ 40 % 256,
   n / 2 ^ 32 % 256, n / 2 ^ 24 % 256, n / 2 ^ 16 % 256,
   n / 2 ^ 8 % 256, n % 256]

theorem u32be_length (n : Nat) : (u32be n).length = 4 := rfl

theorem u64be_length (n : Nat) : (u64be n).length = 8 := rfl

/-- Reading back a 4-byte big-endian encoding recovers the value
(for values that fit in a uint32). -/
theorem beVal_u32be (n : Nat) (h : n < 2 ^ 32) : beVal (u32be n) = n := by
  simp only [beVal, u32be, List.foldl]
  omega

/- ## Envelope codec (src/unnamed/part_016) -/

/-- ASCII bytes of the magic "GONC". -/
def envelopeMagic : List Nat := [71, 79, 78, 67]

def envelopeVersion : Nat := 1

def envelopeFlagExec : Nat := 0x01

def envelopeHeaderSize : Nat := envelopeMagic.length + 3

def envelopeTagSize : Nat := 32

def modeDeterministic : Nat := 0x01

def modeRandomized : Nat := 0x02

/-- newEnvelopeHeader: magic, version byte, flags byte (bit 0 =
executable), mode byte. -/
def newEnvelopeHeader (mode : Nat) (executable : Bool) : List Nat :=
  envelopeMagic ++ [envelopeVersion, if executable then envelopeFlagExec else 0, mode]

theorem newEnvelopeHeader_length (mode : Nat) (exec : Bool) :
    (newEnvelopeHeader mode exec).length = envelopeHeaderSize := by
  cases exec <;> rfl

/-- parseEnvelopeHeader: validates length, magic, version and mode and
returns (mode, executable flag). -/
def parseEnvelopeHeader (header : List Nat) : Except String (Nat × Bool) :=
  if header.length ≠ envelopeHeaderSize then
    .error "envelope processing error: envelope header too short"
  else if header.take envelopeMagic.length ≠ envelopeMagic then
    .error "envelope processing error: invalid envelope magic"
  else if header.getD envelopeMagic.length 0 ≠ envelopeVersion then
    .error "envelope processing error: unsupported envelope version"
  else
    let mode := header.getD (envelopeMagic.length + 2) 0
    if mode ≠ modeDeterministic ∧ mode ≠ modeRandomized then
      .error "envelope processing error: unsupported envelope mode"
    else
      let flags := header.getD (envelopeMagic.length + 1) 0
      .ok (mode, flags &&& envelopeFlagExec ≠ 0)

theorem parseEnvelopeHeader_roundtrip (mode : Nat) (exec : Bool)
    (hmode : mode = modeDeterministic ∨ mode = modeRandomized) :
    parseEnvelopeHeader (newEnvelopeHeader mode exec) = .ok (mode, exec) := by
  rcases hmode with h | h <;> subst h <;> cases exec <;> rfl

/- ## Deterministic chunk codec

The chunk framing (1 MiB chunks, uint32 big-endian length prefix) follows
src/internal/encryption/streaming_writer.go.  The body of the current
revision's deterministic codec (the one called with the envelope header
by src/unnamed/part_018) is not present in the source tree; its
per-chunk associated data and the decrypt-side frame-length cap are
modelled from the spec. -/

/-- Chunk size for the deterministic streaming writer: 1 MiB. -/
def chunkSize : Nat := 1 * 1024 * 1024

/-- Modelled from the spec: decrypt-side sane upper bound on a declared
frame length (1 MiB of plaintext plus up to 128 bytes of AEAD overhead);
the current revision's streaming reader is absent from the tree. -/
def detMaxFrameLen : Nat := chunkSize + 128

/-- The chunks the streaming writer flushes for input P: while the
buffer holds at least chunkSize bytes, flush a chunkSize-byte chunk; on
Close, flush the (nonempty) remainder.  Empty input flushes nothing. -/
def chunkify (P : List Nat) : List (List Nat) :=
  if chunkSize ≤ P.length then
    P.take chunkSize :: chunkify (P.drop chunkSize)
  else if P = [] then [] else [P]
termination_by P.length
decreasing_by
  simp only [List.length_drop]
  have : 0 < chunkSize := by decide
  omega

theorem chunkify_nil : chunkify [] = [] := by
  rw [chunkify]
  decide

/-- Joining the chunks recovers the input. -/
theorem chunkify_flatten (P : List Nat) : (chunkify P).flatten = P := by
  induction P using chunkify.induct with
  | case1 P h ih =>
    rw [chunkify, if_pos h]
    simp [ih, List.take_append_drop]
  | case2 h =>
    rw [chunkify_nil]
    rfl
  | case3 P h h2 =>
    rw [chunkify, if_neg h, if_neg h2]
    simp

/-- Every flushed chunk respects the 1 MiB cap and is nonempty. -/
theorem chunkify_length_le (P : List Nat) (c : List Nat)
    (hc : c ∈ chunkify P) : c.length ≤ chunkSize ∧ c ≠ [] := by
  induction P using chunkify.induct with
  | case1 P h ih =>
    rw [chunkify, if_pos h] at hc
    rcases List.mem_cons.mp hc with h1 | h1
    · subst h1
      constructor
      · simp [List.length_take]
      · have : (P.take chunkSize).length = chunkSize := by
          simp [List.length_take]
          omega
        intro hnil
        rw [hnil] at this
        simp at this
        exact absurd this.symm (by decide)
    · exact ih h1
  | case2 h =>
    rw [chunkify_nil] at hc
    simp at hc
  | case3 P h h2 =>
    rw [chunkify, if_neg h, if_neg h2] at hc
    rcases List.mem_singleton.mp hc with rfl
    exact ⟨by omega, h2⟩

/-- Modelled from the spec: the (associatedData, plaintextChunk) pair
passed to EncryptDeterministically for each flushed chunk, the chunk
counter starting at idx.  Associated data for chunk i is
header_bytes ++ uint64 BE i; the current revision's streaming writer
body (called with the header by src/unnamed/part_018) is absent from
the source tree. -/
def detEncryptCallsFrom (header : List Nat) (idx : Nat) (P : List Nat) :
    List (List Nat × List Nat) :=
  if chunkSize ≤ P.length then
    (header ++ u64be idx, P.take chunkSize) ::
      detEncryptCallsFrom header (idx + 1) (P.drop chunkSize)
  else if P = [] then [] else [(header ++ u64be idx, P)]
termination_by P.length
decreasing_by
  simp only [List.length_drop]
  have : 0 < chunkSize := by decide
  omega

/-- The AEAD calls made when encrypting plaintext P deterministically. -/
def detEncryptCalls (header : List Nat) (P : List Nat) :
    List (List Nat × List Nat) :=
  detEncryptCallsFrom header 0 P

/-- The deterministic body: for each chunk, a uint32 BE length prefix
followed by the AEAD ciphertext (flushChunk in streaming_writer.go). -/
def detEncryptBodyFrom (enc : List Nat → List Nat → List Nat)
    (header : List Nat) (idx : Nat) (P : List Nat) : List Nat :=
  if chunkSize ≤ P.length then
    (u32be (enc (P.take chunkSize) (header ++ u64be idx)).length ++
      enc (P.take chunkSize) (header ++ u64be idx)) ++
      detEncryptBodyFrom enc header (idx + 1) (P.drop chunkSize)
  else if P = [] then []
  else u32be (enc P (header ++ u64be idx)).length ++ enc P (header ++ u64be idx)
termination_by P.length
decreasing_by
  simp only [List.length_drop]
  have : 0 < chunkSize := by decide
  omega

/-- Deterministic encryption of a whole body (chunk counter from 0). -/
def detEncryptBody (enc : List Nat → List Nat → List Nat)
    (header : List Nat) (P : List Nat) : List Nat :=
  detEncryptBodyFrom enc header 0 P

/-- Modelled from the spec: the streaming reader for the deterministic
body.  Loop: read a uint32 BE chunk size (stop cleanly at EOF), reject
declared lengths above the sane upper bound, read that many ciphertext
bytes, AEAD-decrypt with header_bytes ++ uint64 BE index as associated
data, append the plaintext. -/
def detDecryptFrom (dec : List Nat → List Nat → Option (List Nat))
    (header : List Nat) (idx : Nat) (body : List Nat) :
    Except String (List Nat) :=
  if body = [] then .ok []
  else if body.length < 4 then .error "reading chunk size: unexpected EOF"
  else
    let L := beVal (body.take 4)
    if detMaxFrameLen < L then .error "chunk size exceeds maximum allowed size"
    else if (body.drop 4).length < L then .error "reading encrypted chunk: unexpected EOF"
    else
      match dec ((body.drop 4).take L) (header ++ u64be idx) with
      | none => .error "decrypting chunk"
      | some pt =>
        match detDecryptFrom dec header (idx + 1) ((body.drop 4).drop L) with
        | .error e => .error e
        | .ok rest => .ok (pt ++ rest)
termination_by body.length
decreasing_by
  simp only [List.length_drop]
  omega

/-- The associated data passed to each DecryptDeterministically call
while reading a deterministic body (in call order; the loop stops at
the first failing frame). -/
def detDecryptAdsFrom (dec : List Nat → List Nat → Option (List Nat))
    (header : List Nat) (idx : Nat) (body : List Nat) : List (List Nat) :=
  if body = [] then []
  else if body.length < 4 then []
  else
    let L := beVal (body.take 4)
    if detMaxFrameLen < L then []
    else if (body.drop 4).length < L then []
    else
      (header ++ u64be idx) ::
        match dec ((body.drop 4).take L) (header ++ u64be idx) with
        | none => []
        | some _ => detDecryptAdsFrom dec header (idx + 1) ((body.drop 4).drop L)
termination_by body.length
decreasing_by
  simp only [List.length_drop]
  omega

/-- The i-th encryption call uses associated data header ++ u64be (idx + i). -/
theorem detEncryptCallsFrom_get? (header : List Nat) (idx : Nat) (P : List Nat) :
    ∀ i, (detEncryptCallsFrom header idx P)[i]? =
      ((chunkify P)[i]?).map (fun c => (header ++ u64be (idx + i), c)) := by
  induction idx, P using detEncryptCallsFrom.induct header with
  | case1 idx P h ih =>
    intro i
    rw [detEncryptCallsFrom, if_pos h, chunkify, if_pos h]
    match i with
    | 0 => simp
    | i + 1 =>
      simp only [List.getElem?_cons_succ]
      rw [ih i]
      have : idx + 1 + i = idx + (i + 1) := by omega
      rw [this]
  | case2 idx h =>
    intro i
    rw [detEncryptCallsFrom, if_neg h, if_pos rfl, chunkify_nil]
    simp
  | case3 idx P h h2 =>
    intro i
    rw [detEncryptCallsFrom, if_neg h, if_neg h2, chunkify, if_neg h, if_neg h2]
    match i with
    | 0 => simp
    | i + 1 => simp

/-- The i-th decryption call uses associated data header ++ u64be (idx + i). -/
theorem detDecryptAdsFrom_get? (dec : List Nat → List Nat → Option (List Nat))
    (header : List Nat) (idx : Nat) (body : List Nat) :
    ∀ i ad, (detDecryptAdsFrom dec header idx body)[i]? = some ad →
      ad = header ++ u64be (idx + i) := by
  induction idx, body using detDecryptAdsFrom.induct dec header with
  | case1 idx =>
    intro i ad had
    rw [detDecryptAdsFrom] at had
    simp at had
  | case2 idx body h h2 =>
    intro i ad had
    rw [detDecryptAdsFrom, if_neg h, if_pos h2] at had
    simp at had
  | case3 idx body h h2 L hlt =>
    intro i ad had
    rw [detDecryptAdsFrom, if_neg h, if_neg h2] at had
    simp only [if_pos hlt] at had
    simp at had
  | case4 idx body h h2 L h3 h4 =>
    intro i ad had
    rw [detDecryptAdsFrom, if_neg h, if_neg h2, if_neg h3, if_pos h4] at had
    simp at had
  | case5 idx body h h2 L h3 h4 ih =>
    intro i ad had
    rw [detDecryptAdsFrom, if_neg h, if_neg h2, if_neg h3, if_neg h4] at had
    cases hdec : dec ((body.drop 4).take (beVal (body.take 4))) (header ++ u64be idx) with
    | none =>
      rw [hdec] at had
      match i with
      | 0 => simp at had; simpa using had.symm
      | i + 1 => simp at had
    | some pt =>
      rw [hdec] at had
      match i with
      | 0 => simp at had; simpa using had.symm
      | i + 1 =>
        simp only [List.getElem?_cons_succ] at had
        have h6 := ih i ad had
        rw [h6]
        have h5 : idx + 1 + i = idx + (i + 1) := by omega
        rw [h5]

/-- Reading one well-formed frame: length prefix, ciphertext whose AEAD
decryption succeeds, then the rest of the stream. -/
theorem detDecryptFrom_frame (dec : List Nat → List Nat → Option (List Nat))
    (header : List Nat) (idx : Nat) (ct rest pt : List Nat)
    (hct : dec ct (header ++ u64be idx) = some pt)
    (hcap : ct.length ≤ detMaxFrameLen) :
    detDecryptFrom dec header idx ((u32be ct.length ++ ct) ++ rest) =
      match detDecryptFrom dec header (idx + 1) rest with
      | .error e => .error e
      | .ok restP => .ok (pt ++ restP) := by
  rw [detDecryptFrom]
  have hne : (u32be ct.length ++ ct) ++ rest ≠ [] := by
    intro hh
    have := congrArg List.length hh
    simp [u32be] at this
  rw [if_neg hne]
  have h4 : ¬((u32be ct.length ++ ct) ++ rest).length < 4 := by
    simp [u32be]
  rw [if_neg h4]
  have htake : ((u32be ct.length ++ ct) ++ rest).take 4 = u32be ct.length := by
    rw [List.append_assoc]
    have := List.take_left (u32be ct.length) (ct ++ rest)
    rwa [u32be_length] at this
  have hdrop : ((u32be ct.length ++ ct) ++ rest).drop 4 = ct ++ rest := by
    rw [List.append_assoc]
    have := List.drop_left (u32be ct.length) (ct ++ rest)
    rwa [u32be_length] at this
  rw [htake, hdrop]
  have hbv : beVal (u32be ct.length) = ct.length := by
    apply beVal_u32be
    have : detMaxFrameLen < 2 ^ 32 := by decide
    omega
  rw [hbv]
  rw [if_neg (by omega)]
  rw [if_neg (by simp)]
  rw [List.take_left, List.drop_left, hct]

theorem detDecryptFrom_nil (dec : List Nat → List Nat → Option (List Nat))
    (header : List Nat) (idx : Nat) :
    detDecryptFrom dec header idx [] = .ok [] := by
  rw [detDecryptFrom]
  simp

/-- Round trip for the deterministic chunk codec, for any AEAD whose
ciphertext adds a bounded overhead and whose decryption inverts
encryption at the same associated data. -/
theorem detDecryptFrom_encryptBody (enc : List Nat → List Nat → List Nat)
    (dec : List Nat → List Nat → Option (List Nat)) (overhead : Nat)
    (header : List Nat)
    (hlen : ∀ p ad, (enc p ad).length = p.length + overhead)
    (hov : overhead ≤ 128)
    (hdec : ∀ p ad, dec (enc p ad) ad = some p) :
    ∀ idx P, detDecryptFrom dec header idx (detEncryptBodyFrom enc header idx P) = .ok P := by
  intro idx P
  induction idx, P using detEncryptBodyFrom.induct enc header with
  | case1 idx P h ih =>
    rw [detEncryptBodyFrom, if_pos h]
    have hcap : (enc (P.take chunkSize) (header ++ u64be idx)).length ≤ detMaxFrameLen := by
      rw [hlen]
      have : (P.take chunkSize).length ≤ chunkSize := by
        simp [List.length_take]
      have hmax : detMaxFrameLen = chunkSize + 128 := rfl
      omega
    rw [detDecryptFrom_frame dec header idx _ _ _ (hdec _ _) hcap, ih]
    simp [List.take_append_drop]
  | case2 idx h =>
    rw [detEncryptBodyFrom, if_neg h, if_pos rfl, detDecryptFrom_nil]
  | case3 idx P h h2 =>
    rw [detEncryptBodyFrom, if_neg h, if_neg h2]
    have hcap : (enc P (header ++ u64be idx)).length ≤ detMaxFrameLen := by
      rw [hlen]
      have hmax : detMaxFrameLen = chunkSize + 128 := rfl
      omega
    have := detDecryptFrom_frame dec header idx (enc P (header ++ u64be idx)) [] P
      (hdec _ _) hcap
    rw [List.append_nil] at this
    rw [this, detDecryptFrom_nil]
    simp

/- ## Randomized codec (src/internal/encryption/randomized.go)

AES-256-CTR appears as an abstract keystream ks : Nat → Nat (byte at a
given stream position, for the HKDF-derived encryption key and the
chosen IV) and HMAC-SHA256 as an abstract function macF of the absorbed
byte string (for the HKDF-derived MAC key); both are external library
primitives.  The decrypt side processes the byte stream after the IV in
reader-supplied chunks; theorems quantify over every chunking whose
concatenation is the stream. -/

/-- XOR of a byte string against the keystream starting at position pos
(XORKeyStream advances the stream cursor). -/
def ctrXor (ks : Nat → Nat) (pos : Nat) (data : List Nat) : List Nat :=
  match data with
  | [] => []
  | b :: bs => (b ^^^ ks pos) :: ctrXor ks (pos + 1) bs

theorem ctrXor_length (ks : Nat → Nat) : ∀ pos data, (ctrXor ks pos data).length = data.length := by
  intro pos data
  induction data generalizing pos with
  | nil => rfl
  | cons b bs ih => simp [ctrXor, ih]

theorem ctrXor_append (ks : Nat → Nat) :
    ∀ a b pos, ctrXor ks pos (a ++ b) = ctrXor ks pos a ++ ctrXor ks (pos + a.length) b := by
  intro a
  induction a with
  | nil => simp [ctrXor]
  | cons x xs ih =>
    intro b pos
    simp [ctrXor, ih, Nat.add_assoc, Nat.add_comm 1 xs.length]

/-- CTR decryption is CTR encryption (XOR is an involution). -/
theorem ctrXor_ctrXor (ks : Nat → Nat) : ∀ pos data, ctrXor ks pos (ctrXor ks pos data) = data := by
  intro pos data
  induction data generalizing pos with
  | nil => rfl
  | cons b bs ih => simp [ctrXor, ih, Nat.xor_cancel_right]

/-- encryptRandomized body: the random 16-byte IV, the CTR ciphertext,
then the HMAC tag absorbed over header, then IV, then ciphertext. -/
def randEncryptBody (ks : Nat → Nat) (macF : List Nat → List Nat)
    (header iv P : List Nat) : List Nat :=
  iv ++ ctrXor ks 0 P ++ macF (header ++ iv ++ ctrXor ks 0 P)

/-- State of the decryptRandomized read loop: the held-back trailing
tag candidate, the ciphertext absorbed into the MAC so far (its length
is the CTR stream position), and the plaintext written so far. -/
structure RandDecState where
  tagBuf : List Nat
  ct : List Nat
  out : List Nat
deriving DecidableEq

/-- One iteration of the decryptRandomized loop on a nonempty read:
combined := tagBuf ++ chunk; if at most tagSize bytes are in hand they
are all held back, else all but the trailing tagSize bytes are absorbed
into the MAC, CTR-decrypted and written. -/
def randDecryptStep (ks : Nat → Nat) (st : RandDecState) (chunk : List Nat) :
    RandDecState :=
  let combined := st.tagBuf ++ chunk
  if combined.length ≤ envelopeTagSize then
    { st with tagBuf := combined }
  else
    let processLen := combined.length - envelopeTagSize
    { tagBuf := combined.drop processLen,
      ct := st.ct ++ combined.take processLen,
      out := st.out ++ ctrXor ks st.ct.length (combined.take processLen) }

/-- The decryptRandomized read loop over the reads after the IV. -/
def randDecryptLoop (ks : Nat → Nat) (chunks : List (List Nat)) : RandDecState :=
  chunks.foldl (randDecryptStep ks) ⟨[], [], []⟩

/-- After EOF: fail if fewer than tagSize bytes were held back, fail if
the held-back bytes differ from the recomputed MAC, else succeed with
the plaintext written. -/
def randDecryptFinish (macF : List Nat → List Nat) (header iv : List Nat)
    (st : RandDecState) : Except String (List Nat) :=
  if st.tagBuf.length ≠ envelopeTagSize then
    .error "envelope processing error: authentication tag missing"
  else if macF (header ++ iv ++ st.ct) ≠ st.tagBuf then
    .error "envelope processing error: authentication failed"
  else .ok st.out

/-- decryptRandomized: read the 16-byte IV, run the loop over the reads
after the IV (chunks, whose concatenation theorems constrain to equal
body minus the IV), then authenticate. -/
def randDecryptBody (ks : Nat → Nat) (macF : List Nat → List Nat)
    (header body : List Nat) (chunks : List (List Nat)) : Except String (List Nat) :=
  if body.length < 16 then .error "reading IV: unexpected EOF"
  else randDecryptFinish macF header (body.take 16) (randDecryptLoop ks chunks)

/-- Closed form of the loop state as a function of the bytes consumed:
the held-back buffer is the trailing (at most) 32 bytes, everything
before it has been absorbed and decrypted. -/
def randStateOf (ks : Nat → Nat) (C : List Nat) : RandDecState :=
  ⟨C.drop (C.length - envelopeTagSize),
   C.take (C.length - envelopeTagSize),
   ctrXor ks 0 (C.take (C.length - envelopeTagSize))⟩

theorem randDecryptStep_stateOf (ks : Nat → Nat) (C chunk : List Nat) :
    randDecryptStep ks (randStateOf ks C) chunk = randStateOf ks (C ++ chunk) := by
  rcases le_or_lt C.length envelopeTagSize with hC | hC
  · -- everything so far is still held back
    have h0 : C.length - envelopeTagSize = 0 := by omega
    have hs : randStateOf ks C = ⟨C, [], []⟩ := by
      simp [randStateOf, h0, ctrXor]
    rw [hs, randDecryptStep]
    by_cases hcc : (C ++ chunk).length ≤ envelopeTagSize
    · rw [if_pos hcc]
      have h1 : C.length + chunk.length - envelopeTagSize = 0 := by
        rw [List.length_append] at hcc
        omega
      simp [randStateOf, List.length_append, h1, ctrXor]
    · rw [if_neg hcc]
      simp [randStateOf, ctrXor]
  · -- the held-back buffer is full; split off the trailing tag candidate
    obtain ⟨a, b, hab, hbT⟩ :
        ∃ a b, C = a ++ b ∧ b.length = envelopeTagSize := by
      refine ⟨C.take (C.length - envelopeTagSize), C.drop (C.length - envelopeTagSize),
        (List.take_append_drop _ C).symm, ?_⟩
      simp [List.length_drop]
      omega
    subst hab
    have hs : randStateOf ks (a ++ b) = ⟨b, a, ctrXor ks 0 a⟩ := by
      have hlen : (a ++ b).length - envelopeTagSize = a.length := by
        simp [List.length_append]
        omega
      simp only [randStateOf, hlen]
      rw [List.take_left, List.drop_left]
    rw [hs, randDecryptStep]
    by_cases hchunk : chunk = []
    · subst hchunk
      rw [if_pos (by simp [hbT])]
      rw [List.append_nil, List.append_nil, hs]
    · have hlenpos : 0 < chunk.length := List.length_pos.mpr hchunk
      have hcc : ¬(b ++ chunk).length ≤ envelopeTagSize := by
        rw [List.length_append, hbT]
        omega
      rw [if_neg hcc]
      have hpl : (b ++ chunk).length - envelopeTagSize = chunk.length := by
        rw [List.length_append, hbT]
        omega
      simp only [hpl]
      have hRlen : (a ++ (b ++ chunk)).length - envelopeTagSize
          = a.length + chunk.length := by
        simp only [List.length_append, hbT]
        omega
      have hRdrop : (a ++ (b ++ chunk)).drop (a.length + chunk.length)
          = (b ++ chunk).drop chunk.length := List.drop_append chunk.length
      have hRtake : (a ++ (b ++ chunk)).take (a.length + chunk.length)
          = a ++ (b ++ chunk).take chunk.length := List.take_append chunk.length
      simp only [randStateOf, hRlen, List.append_assoc, hRdrop, hRtake, ctrXor_append,
        Nat.zero_add]

theorem randDecryptLoop_stateOf (ks : Nat → Nat) (chunks : List (List Nat)) :
    randDecryptLoop ks chunks = randStateOf ks chunks.flatten := by
  have general : ∀ (cs : List (List Nat)) (C : List Nat),
      List.foldl (randDecryptStep ks) (randStateOf ks C) cs
      = randStateOf ks (C ++ cs.flatten) := by
    intro cs
    induction cs with
    | nil => intro C; simp
    | cons c cs ih =>
      intro C
      simp only [List.foldl_cons, List.flatten_cons]
      rw [randDecryptStep_stateOf, ih, List.append_assoc]
  have h0 : randStateOf ks [] = ⟨[], [], []⟩ := by
    simp [randStateOf, ctrXor]
  rw [randDecryptLoop, ← h0, general]
  simp

/- ## Processor (src/unnamed/part_018) -/

/-- Required key size for AES-SIV (deterministic) encryption. -/
def AesSivKeySize : Nat := 64

/-- Required key size for randomized encryption. -/
def AesKeySize : Nat := 32

/-- The key-length validation that NewProcessor performs before any
per-file work (part_018 lines 75-103): decrypt accepts either key size;
deterministic encrypt demands 64 bytes; randomized encrypt demands 32. -/
def newProcessorCheck (decrypt deterministic : Bool) (keyLen : Nat) :
    Except String Unit :=
  if decrypt then
    if keyLen ≠ AesSivKeySize ∧ keyLen ≠ AesKeySize then
      .error "decrypt: key must be 32 or 64 bytes (64 or 128 hex characters)"
    else .ok ()
  else if deterministic then
    if keyLen ≠ AesSivKeySize then
      .error "encrypt: deterministic mode requires 64-byte key (128 hex characters)"
    else .ok ()
  else
    if keyLen ≠ AesKeySize then
      .error "encrypt: randomized mode requires 32-byte key (64 hex characters)"
    else .ok ()

/-- Processor.encrypt: write the envelope header for the selected mode,
then the mode's body.  The randomness the encryptor may draw (the
16-byte IV) is an explicit input; the deterministic branch never touches
it. -/
def encryptDispatch (deterministic : Bool)
    (enc : List Nat → List Nat → List Nat)
    (ks : Nat → Nat) (macF : List Nat → List Nat) (iv : List Nat)
    (exec : Bool) (P : List Nat) : List Nat :=
  if deterministic then
    newEnvelopeHeader modeDeterministic exec ++
      detEncryptBody enc (newEnvelopeHeader modeDeterministic exec) P
  else
    newEnvelopeHeader modeRandomized exec ++
      randEncryptBody ks macF (newEnvelopeHeader modeRandomized exec) iv P

/-- Processor.decrypt: read the 7-byte header, parse it, check that the
key length fits the mode named in the header, then run the matching
body reader.  The first component counts the input (source-file) bytes
read before returning; the body readers consume the remainder of the
file. -/
def decryptDispatch (dec : List Nat → List Nat → Option (List Nat))
    (ks : Nat → Nat) (macF : List Nat → List Nat)
    (chunks : List (List Nat)) (keyLen : Nat) (input : List Nat) :
    Nat × Except String (Bool × List Nat) :=
  if input.length < envelopeHeaderSize then
    (input.length, .error "reading header: unexpected EOF")
  else
    match parseEnvelopeHeader (input.take envelopeHeaderSize) with
    | .error e => (envelopeHeaderSize, .error e)
    | .ok (mode, exec) =>
      if mode = modeDeterministic then
        if keyLen ≠ AesSivKeySize then
          (envelopeHeaderSize,
            .error "decrypt: deterministic data requires 64-byte key (128 hex characters)")
        else
          (input.length,
            (detDecryptFrom dec (input.take envelopeHeaderSize) 0
              (input.drop envelopeHeaderSize)).map (fun pt => (exec, pt)))
      else
        if keyLen ≠ AesKeySize then
          (envelopeHeaderSize,
            .error "decrypt: randomized data requires 32-byte key (64 hex characters)")
        else
          (input.length,
            (randDecryptBody ks macF (input.take envelopeHeaderSize)
              (input.drop envelopeHeaderSize) chunks).map (fun pt => (exec, pt)))

/-- Whether a stat mode has any executable bit set (processFile /
fileutil.NewTempContext). -/
def isExecMode (mode : Nat) : Bool := mode &&& 0o111 ≠ 0

/-- The permission processFile chmods onto the output before the
rename: owner read/write, plus all execute bits when the executable
flag applies. -/
def outputPerm (exec : Bool) : Nat :=
  if exec then 0o600 ||| 0o111 else 0o600

/- ## Concrete primitive instances used to exercise the theorems -/

/-- A stand-in deterministic AEAD with 16 bytes of overhead (the
overhead of AES-SIV): ciphertext is the plaintext followed by 16 zero
bytes. -/
def toyDetEnc (p _ad : List Nat) : List Nat := p ++ List.replicate 16 0

/-- Inverse of toyDetEnc: strip the trailing 16 bytes. -/
def toyDetDec (c _ad : List Nat) : Option (List Nat) :=
  if 16 ≤ c.length then some (c.take (c.length - 16)) else none

theorem toyDetEnc_length (p ad : List Nat) :
    (toyDetEnc p ad).length = p.length + 16 := by
  simp [toyDetEnc]

theorem toyDetDec_enc (p ad : List Nat) :
    toyDetDec (toyDetEnc p ad) ad = some p := by
  rw [toyDetEnc, toyDetDec]
  rw [if_pos (by simp)]
  have h1 : (p ++ List.replicate 16 0).length - 16 = p.length := by
    simp
  rw [h1]
  rw [List.take_left]

/- ## Claim theorems: encryption pipeline -/

/-- C1: in deterministic mode, every chunk is AEAD-encrypted and
AEAD-decrypted with associated data equal to the 7-byte envelope header
followed by the big-endian uint64 chunk index starting at 0: the i-th
EncryptDeterministically call and the i-th DecryptDeterministically
call both receive header ++ u64be i as associated data. -/
theorem claim_C1_det_chunk_associated_data (header P body : List Nat)
    (dec : List Nat → List Nat → Option (List Nat)) :
    (∀ i ad c, (detEncryptCalls header P)[i]? = some (ad, c) →
      ad = header ++ u64be i) ∧
    (∀ i ad, (detDecryptAdsFrom dec header 0 body)[i]? = some ad →
      ad = header ++ u64be i) := by
  constructor
  · intro i ad c h
    have hg := detEncryptCallsFrom_get? header 0 P i
    rw [detEncryptCalls] at h
    rw [h] at hg
    cases hc : (chunkify P)[i]? with
    | none => rw [hc] at hg; simp at hg
    | some c2 =>
      rw [hc] at hg
      simp at hg
      exact hg.1
  · intro i ad h
    have := detDecryptAdsFrom_get? dec header 0 body i ad h
    simpa using this

/-- C1 witness: a concrete short plaintext produces one encryption call
with associated data header ++ u64be 0, and a concrete one-frame body
produces one decryption call with the same associated data. -/
theorem claim_C1_det_chunk_associated_data_witness :
    (∃ ad c, (detEncryptCalls (newEnvelopeHeader modeDeterministic false) [1, 2, 3])[0]?
        = some (ad, c) ∧ ad = newEnvelopeHeader modeDeterministic false ++ u64be 0) ∧
    (∃ ad, (detDecryptAdsFrom (fun c _ => some c) (newEnvelopeHeader modeDeterministic false) 0
        (u32be 3 ++ [9, 9, 9]))[0]? = some ad ∧
      ad = newEnvelopeHeader modeDeterministic false ++ u64be 0) := by
  have henc : (detEncryptCalls (newEnvelopeHeader modeDeterministic false) [1, 2, 3])[0]?
      = some (newEnvelopeHeader modeDeterministic false ++ u64be 0, [1, 2, 3]) := by
    rw [detEncryptCalls, detEncryptCallsFrom]
    rw [if_neg (by decide), if_neg (by decide)]
    rfl
  have hdec : (detDecryptAdsFrom (fun c _ => some c)
        (newEnvelopeHeader modeDeterministic false) 0 (u32be 3 ++ [9, 9, 9]))[0]?
      = some (newEnvelopeHeader modeDeterministic false ++ u64be 0) := by
    rw [detDecryptAdsFrom]
    rw [if_neg (by decide), if_neg (by decide), if_neg (by decide), if_neg (by decide)]
    simp
  refine ⟨⟨_, _, henc, ?_⟩, ⟨_, hdec, ?_⟩⟩
  · exact (claim_C1_det_chunk_associated_data _ [1, 2, 3] [] (fun c _ => some c)).1
      0 _ _ henc
  · exact (claim_C1_det_chunk_associated_data _ [] (u32be 3 ++ [9, 9, 9])
      (fun c _ => some c)).2 0 _ hdec

/-- C2: deterministic-mode round trip and determinism.  For any AEAD
with bounded overhead whose decryption inverts encryption, decrypting
the deterministic encryption of P (with the matching 64-byte-key
processor) yields exactly P; and the deterministic output is byte-
identical across runs: it does not depend on the randomness source
(the iv argument) nor on the randomized-mode primitives. -/
theorem claim_C2_det_roundtrip_determinism
    (enc : List Nat → List Nat → List Nat)
    (dec : List Nat → List Nat → Option (List Nat)) (overhead : Nat)
    (ks ks2 : Nat → Nat) (macF macF2 : List Nat → List Nat)
    (iv1 iv2 : List Nat) (exec : Bool) (P : List Nat)
    (chunks : List (List Nat))
    (hlen : ∀ p ad, (enc p ad).length = p.length + overhead)
    (hov : overhead ≤ 128)
    (hdec : ∀ p ad, dec (enc p ad) ad = some p) :
    (decryptDispatch dec ks macF chunks AesSivKeySize
        (encryptDispatch true enc ks macF iv1 exec P)).snd = .ok (exec, P) ∧
    encryptDispatch true enc ks macF iv1 exec P
      = encryptDispatch true enc ks2 macF2 iv2 exec P := by
  constructor
  · rw [encryptDispatch, if_pos rfl, decryptDispatch]
    have hhl : (newEnvelopeHeader modeDeterministic exec).length = envelopeHeaderSize :=
      newEnvelopeHeader_length _ _
    have hlen7 : ¬(newEnvelopeHeader modeDeterministic exec ++
        detEncryptBody enc (newEnvelopeHeader modeDeterministic exec) P).length
          < envelopeHeaderSize := by
      simp [List.length_append, hhl]
    rw [if_neg hlen7]
    have htake : (newEnvelopeHeader modeDeterministic exec ++
        detEncryptBody enc (newEnvelopeHeader modeDeterministic exec) P).take
          envelopeHeaderSize = newEnvelopeHeader modeDeterministic exec := by
      rw [← hhl, List.take_left]
    have hdrop : (newEnvelopeHeader modeDeterministic exec ++
        detEncryptBody enc (newEnvelopeHeader modeDeterministic exec) P).drop
          envelopeHeaderSize
        = detEncryptBody enc (newEnvelopeHeader modeDeterministic exec) P := by
      rw [← hhl, List.drop_left]
    rw [htake, hdrop, parseEnvelopeHeader_roundtrip _ _ (Or.inl rfl)]
    have hkey : ¬(AesSivKeySize ≠ AesSivKeySize) := fun hcon => hcon rfl
    simp only [if_pos (rfl : modeDeterministic = modeDeterministic), if_neg hkey]
    rw [detEncryptBody] at *
    rw [detDecryptFrom_encryptBody enc dec overhead _ hlen hov hdec 0 P]
    rfl
  · rw [encryptDispatch, encryptDispatch]
    simp

/-- C2 witness: concrete round trip through the full envelope with the
stand-in AEAD, and byte-identical encryption under two different
randomness inputs. -/
theorem claim_C2_det_roundtrip_determinism_witness :
    (decryptDispatch toyDetDec (fun _ => 0) (fun _ => []) [] AesSivKeySize
        (encryptDispatch true toyDetEnc (fun _ => 0) (fun _ => []) [] false [1, 2, 3])).snd
      = .ok (false, [1, 2, 3]) ∧
    encryptDispatch true toyDetEnc (fun _ => 0) (fun _ => []) [] false [1, 2, 3]
      = encryptDispatch true toyDetEnc (fun _ => 1) (fun _ => [7]) [4, 4] false [1, 2, 3] :=
  claim_C2_det_roundtrip_determinism toyDetEnc toyDetDec 16
    (fun _ => 0) (fun _ => 1) (fun _ => []) (fun _ => [7]) [] [4, 4] false [1, 2, 3] []
    toyDetEnc_length (by decide) toyDetDec_enc

/-- C3: randomized-mode round trip.  For every plaintext P, every
keystream the derived key may induce, every 16-byte IV the encryptor
may draw, and every chunking of the reads after the IV,
decryptRandomized applied to the body produced by encryptRandomized
(IV, CTR ciphertext, 32-byte HMAC tag) under the same keys and header
writes exactly P and returns no error. -/
theorem claim_C3_rand_roundtrip (ks : Nat → Nat) (macF : List Nat → List Nat)
    (header iv P : List Nat) (chunks : List (List Nat))
    (hiv : iv.length = 16)
    (hmac : (macF (header ++ iv ++ ctrXor ks 0 P)).length = envelopeTagSize)
    (hchunks : chunks.flatten = (randEncryptBody ks macF header iv P).drop 16) :
    randDecryptBody ks macF header (randEncryptBody ks macF header iv P) chunks
      = .ok P := by
  have hdrop16 : (randEncryptBody ks macF header iv P).drop 16
      = ctrXor ks 0 P ++ macF (header ++ iv ++ ctrXor ks 0 P) := by
    rw [randEncryptBody, List.append_assoc, ← hiv, List.drop_left]
  have htake16 : (randEncryptBody ks macF header iv P).take 16 = iv := by
    rw [randEncryptBody, List.append_assoc, ← hiv, List.take_left]
  rw [randDecryptBody]
  rw [if_neg (by simp [randEncryptBody, List.length_append]; omega)]
  rw [htake16, randDecryptLoop_stateOf, hchunks, hdrop16]
  have hctlen : (ctrXor ks 0 P).length = P.length := ctrXor_length ks 0 P
  have hsub : (ctrXor ks 0 P ++ macF (header ++ iv ++ ctrXor ks 0 P)).length
        - envelopeTagSize = (ctrXor ks 0 P).length := by
    rw [List.length_append, hmac]
    omega
  have hstate : randStateOf ks
      (ctrXor ks 0 P ++ macF (header ++ iv ++ ctrXor ks 0 P)) =
      ⟨macF (header ++ iv ++ ctrXor ks 0 P), ctrXor ks 0 P,
        ctrXor ks 0 (ctrXor ks 0 P)⟩ := by
    rw [randStateOf, hsub, List.take_left, List.drop_left]
  rw [hstate, randDecryptFinish]
  rw [if_neg (fun hcon => hcon hmac)]
  rw [if_neg (fun hcon => hcon rfl)]
  rw [ctrXor_ctrXor]

/-- C3 witness: concrete round trip with a concrete keystream, MAC,
IV, plaintext and a single post-IV read. -/
theorem claim_C3_rand_roundtrip_witness :
    randDecryptBody (fun i => i + 7) (fun _ => List.replicate 32 1) []
        (randEncryptBody (fun i => i + 7) (fun _ => List.replicate 32 1) []
          (List.replicate 16 5) [1, 2, 3])
        [(randEncryptBody (fun i => i + 7) (fun _ => List.replicate 32 1) []
          (List.replicate 16 5) [1, 2, 3]).drop 16]
      = .ok [1, 2, 3] :=
  claim_C3_rand_roundtrip (fun i => i + 7) (fun _ => List.replicate 32 1) []
    (List.replicate 16 5) [1, 2, 3] _ (by simp) (by simp [envelopeTagSize]) (by simp)

/-- C4: randomized-mode authentication.  Streaming decryption of the
bytes after the IV fails with an error exactly when fewer than 32 bytes
remain after the IV, or the trailing 32 bytes differ from the MAC of
header, then IV, then ciphertext, in that order (flipping any tag byte
therefore always fails; flips elsewhere fail whenever they change the
MAC value, which is the HMAC security property outside this model). -/
theorem claim_C4_rand_auth_iff (ks : Nat → Nat) (macF : List Nat → List Nat)
    (header body : List Nat) (chunks : List (List Nat))
    (h16 : 16 ≤ body.length)
    (hchunks : chunks.flatten = body.drop 16) :
    (∃ e, randDecryptBody ks macF header body chunks = .error e) ↔
      ((body.drop 16).length < envelopeTagSize ∨
        (body.drop 16).drop ((body.drop 16).length - envelopeTagSize) ≠
          macF (header ++ body.take 16 ++
            (body.drop 16).take ((body.drop 16).length - envelopeTagSize))) := by
  rw [randDecryptBody, if_neg (by omega)]
  rw [randDecryptLoop_stateOf, hchunks]
  rw [randDecryptFinish, randStateOf]
  have hlen : ((body.drop 16).drop ((body.drop 16).length - envelopeTagSize)).length
      = (body.drop 16).length - ((body.drop 16).length - envelopeTagSize) := by
    simp [List.length_drop]
    omega
  by_cases hshort : (body.drop 16).length < envelopeTagSize
  · rw [if_pos (by rw [hlen]; omega)]
    constructor
    · intro _
      exact Or.inl hshort
    · intro _
      exact ⟨_, rfl⟩
  · rw [if_neg (by rw [hlen]; omega)]
    by_cases hm : macF (header ++ body.take 16 ++
        (body.drop 16).take ((body.drop 16).length - envelopeTagSize)) ≠
        (body.drop 16).drop ((body.drop 16).length - envelopeTagSize)
    · rw [if_pos hm]
      constructor
      · intro _
        exact Or.inr (Ne.symm hm)
      · intro _
        exact ⟨_, rfl⟩
    · rw [if_neg hm]
      constructor
      · rintro ⟨e, he⟩
        exact absurd he (by simp)
      · rintro (hcon | hcon)
        · exact absurd hcon hshort
        · exact absurd (Ne.symm hcon) hm

/-- C4 witness: a body holding only the IV (zero bytes after it) fails
authentication with a "tag missing" error. -/
theorem claim_C4_rand_auth_iff_witness :
    ∃ e, randDecryptBody (fun _ => 0) (fun _ => List.replicate 32 1) []
      (List.replicate 16 0) [] = .error e :=
  (claim_C4_rand_auth_iff (fun _ => 0) (fun _ => List.replicate 32 1) []
    (List.replicate 16 0) [] (by simp) (by simp)).mpr
    (Or.inl (by simp [envelopeTagSize]))

/-- C5: deterministic-mode frame length cap.  Whenever the streaming
reader reaches a frame whose declared uint32 big-endian length exceeds
the sane upper bound of 1 MiB + 128 bytes, it rejects the frame with an
error instead of processing it (modelled from the spec; the current
revision's reader is absent from the source tree). -/
theorem claim_C5_det_frame_cap (dec : List Nat → List Nat → Option (List Nat))
    (header : List Nat) (idx : Nat) (body : List Nat)
    (h4 : 4 ≤ body.length)
    (hover : detMaxFrameLen < beVal (body.take 4)) :
    detDecryptFrom dec header idx body
      = .error "chunk size exceeds maximum allowed size" := by
  rw [detDecryptFrom]
  have hne : body ≠ [] := by
    intro hh
    subst hh
    simp at h4
  rw [if_neg hne, if_neg (by omega)]
  simp only [if_pos hover]

/-- C5 witness: a frame declaring 1 MiB + 129 bytes is rejected. -/
theorem claim_C5_det_frame_cap_witness :
    detDecryptFrom (fun _ _ => none) [] 0 (u32be (detMaxFrameLen + 1))
      = .error "chunk size exceeds maximum allowed size" :=
  claim_C5_det_frame_cap (fun _ _ => none) [] 0 (u32be (detMaxFrameLen + 1))
    (by decide) (by decide)

/-- C6 counterexample: the claim says a wrong key length for a mode
fails before any file I/O on decrypt as well; but decrypting a
randomized-mode file with a 64-byte key passes the construction-time
check and fails only after the 7-byte header has been read from the
input file, so file I/O does happen before the failure. -/
theorem claim_C6_counterexample :
    newProcessorCheck true false AesSivKeySize = .ok () ∧
    (decryptDispatch (fun _ _ => none) (fun _ => 0) (fun _ => [])
        [] AesSivKeySize (newEnvelopeHeader modeRandomized false)).fst
      = envelopeHeaderSize ∧
    (decryptDispatch (fun _ _ => none) (fun _ => 0) (fun _ => [])
        [] AesSivKeySize (newEnvelopeHeader modeRandomized false)).snd
      = .error "decrypt: randomized data requires 32-byte key (64 hex characters)" ∧
    envelopeHeaderSize ≠ 0 := by
  refine ⟨rfl, rfl, rfl, by decide⟩

/-- C6 amended: wrong key length on encrypt fails in NewProcessor,
before any per-file I/O; on decrypt, both key sizes pass construction
and a wrong key length for the file's mode is rejected immediately
after the 7-byte header is read, before any body bytes are processed
or plaintext written. -/
theorem claim_C6_amended_key_checks :
    (∀ keyLen, keyLen ≠ AesSivKeySize →
      newProcessorCheck false true keyLen =
        .error "encrypt: deterministic mode requires 64-byte key (128 hex characters)") ∧
    (∀ keyLen, keyLen ≠ AesKeySize →
      newProcessorCheck false false keyLen =
        .error "encrypt: randomized mode requires 32-byte key (64 hex characters)") ∧
    (∀ dec ks macF chunks keyLen exec rest, keyLen ≠ AesSivKeySize →
      decryptDispatch dec ks macF chunks keyLen
          (newEnvelopeHeader modeDeterministic exec ++ rest) =
        (envelopeHeaderSize,
          .error "decrypt: deterministic data requires 64-byte key (128 hex characters)")) ∧
    (∀ dec ks macF chunks keyLen exec rest, keyLen ≠ AesKeySize →
      decryptDispatch dec ks macF chunks keyLen
          (newEnvelopeHeader modeRandomized exec ++ rest) =
        (envelopeHeaderSize,
          .error "decrypt: randomized data requires 32-byte key (64 hex characters)")) := by
  refine ⟨?_, ?_, ?_, ?_⟩
  · intro keyLen hk
    rw [newProcessorCheck, if_neg (by simp), if_pos rfl, if_pos hk]
  · intro keyLen hk
    rw [newProcessorCheck, if_neg (by simp), if_neg (by simp), if_pos hk]
  · intro dec ks macF chunks keyLen exec rest hk
    have hhl : (newEnvelopeHeader modeDeterministic exec).length = envelopeHeaderSize :=
      newEnvelopeHeader_length _ _
    rw [decryptDispatch]
    rw [if_neg (by simp [List.length_append, hhl])]
    rw [show (newEnvelopeHeader modeDeterministic exec ++ rest).take envelopeHeaderSize
        = newEnvelopeHeader modeDeterministic exec by rw [← hhl, List.take_left]]
    rw [parseEnvelopeHeader_roundtrip _ _ (Or.inl rfl)]
    simp [hk]
  · intro dec ks macF chunks keyLen exec rest hk
    have hhl : (newEnvelopeHeader modeRandomized exec).length = envelopeHeaderSize :=
      newEnvelopeHeader_length _ _
    rw [decryptDispatch]
    rw [if_neg (by simp [List.length_append, hhl])]
    rw [show (newEnvelopeHeader modeRandomized exec ++ rest).take envelopeHeaderSize
        = newEnvelopeHeader modeRandomized exec by rw [← hhl, List.take_left]]
    rw [parseEnvelopeHeader_roundtrip _ _ (Or.inr rfl)]
    simp [hk, modeRandomized, modeDeterministic]

/-- C6 amended witness: a 32-byte key against a deterministic-mode
header is rejected right after the header with nothing else read. -/
theorem claim_C6_amended_key_checks_witness :
    decryptDispatch (fun _ _ => none) (fun _ => 0) (fun _ => [])
        [] AesKeySize (newEnvelopeHeader modeDeterministic false ++ [1, 2, 3]) =
      (envelopeHeaderSize,
        .error "decrypt: deterministic data requires 64-byte key (128 hex characters)") :=
  claim_C6_amended_key_checks.2.2.1 (fun _ _ => none) (fun _ => 0) (fun _ => [])
    [] AesKeySize false [1, 2, 3] (by decide)

/-- C7 counterexample: encrypting an executable (mode 0o755) source
file chmods the output to 0o600 ||| 0o111 = 0o711, not 0o700. -/
theorem claim_C7_counterexample :
    outputPerm (isExecMode 0o755) = 0o711 ∧ outputPerm (isExecMode 0o755) ≠ 0o700 := by
  decide

/-- C7 amended: encrypting an executable input file (any source mode
with an executable bit, such as 0o755) produces an output file whose
permission mode is 0o711 (owner read/write plus all execute bits). -/
theorem claim_C7_amended_exec_perm (mode : Nat) (h : isExecMode mode = true) :
    outputPerm (isExecMode mode) = 0o711 := by
  rw [h]
  decide

/-- C7 amended witness at source mode 0o755. -/
theorem claim_C7_amended_exec_perm_witness :
    isExecMode 0o755 = true ∧ outputPerm (isExecMode 0o755) = 0o711 :=
  ⟨by decide, claim_C7_amended_exec_perm 0o755 (by decide)⟩

/- ## Path matcher (src/pkg/pathmatch)

Match(pattern, path) compiles the pattern to an anchored regular
expression (toRegexp) and runs Go's regexp engine on the path.  The
embedding parses the pattern into a token list following toRegexp's
case analysis ('*' to any-sequence, '?' to any-character, character
classes via findClosingBracket with [! and [^ negation, backslash
escapes, everything else literal) and interprets the tokens with an
executable matcher proved equivalent to the denotational anchored-regex
semantics GMatches.  The engine's default flags make '.' (and hence the
translations of '?' and '*') match any character except a newline,
while classes may match a newline; the model mirrors this.  Character
classes are modelled as plain members and lo-hi ranges; classes using
regexp-level syntax the engine would reject or reinterpret (a leading
']', a backslash or a POSIX "[:" inside the class, a reversed range)
are rejected at compile time and are outside the model. -/

/-- A character-class member: a single character or an inclusive range. -/
inductive ClsItem where
  | single (c : Char)
  | range (lo hi : Char)
deriving DecidableEq

/-- One token of the compiled pattern. -/
inductive GTok where
  | lit (c : Char)
  | anyOne
  | anySeq
  | cls (neg : Bool) (items : List ClsItem)
deriving DecidableEq

/-- Whether a character belongs to a class item. -/
def inClsItem (c : Char) : ClsItem → Bool
  | .single a => c = a
  | .range lo hi => lo ≤ c && c ≤ hi

/-- Whether a character matches a (possibly negated) class. -/
def clsMatch (neg : Bool) (items : List ClsItem) (c : Char) : Bool :=
  if neg then !(items.any (inClsItem c)) else items.any (inClsItem c)

/-- Class contents: a '-' between two members forms a range; a
trailing or leading '-' is a literal member. -/
def classItems : List Char → List ClsItem
  | [] => []
  | a :: '-' :: b :: rest => .range a b :: classItems rest
  | a :: rest => .single a :: classItems rest

/-- Ranges must not be reversed (the regexp engine rejects them). -/
def classItemsOk : List ClsItem → Bool
  | [] => true
  | .single _ :: rest => classItemsOk rest
  | .range lo hi :: rest => decide (lo ≤ hi) && classItemsOk rest

/-- Class contents the engine takes at face value ('[' alone included):
a backslash starts a regexp escape and a '[' directly followed by ':'
starts a POSIX named class, both of which change the meaning of the
copied class, so such contents are outside the model and rejected. -/
def contentOk : List Char → Bool
  | [] => true
  | '\\' :: _ => false
  | '[' :: ':' :: _ => false
  | _ :: rest => contentOk rest

/-- Scan up to the closing ']' of a character class, returning the
content before it and the remainder after it (findClosingBracket). -/
def scanClass : List Char → Option (List Char × List Char)
  | [] => none
  | c :: rest =>
    if c = ']' then some ([], rest)
    else (scanClass rest).map (fun p => (c :: p.1, p.2))

/-- One parsed class (the part of the pattern after '['): optional
negation marker ('!' per toRegexp's conversion, '^' per the regexp
engine), then members up to the closing bracket. -/
def parseClass (rest : List Char) : Except String (Bool × List ClsItem × List Char) :=
  let (neg, rest1) :=
    match rest with
    | '!' :: r => (true, r)
    | '^' :: r => (true, r)
    | r => (false, r)
  match rest1 with
  | ']' :: _ => .error "unsupported leading ] in character class"
  | _ =>
    match scanClass rest1 with
    | none => .error "unclosed character class in pattern"
    | some (content, rest2) =>
      if contentOk content && classItemsOk (classItems content) then
        .ok (neg, classItems content, rest2)
      else .error "unsupported character class content"

/-- toRegexp, fuelled for structural recursion (each parsing step
consumes at least one pattern character, so fuel = pattern length + 1
always suffices): '*' compiles to any-sequence, '?' to any-character,
'[' to a character class, backslash escapes the next character and is
an error at the end, everything else is a literal. -/
def parseGlobF : Nat → List Char → Except String (List GTok)
  | 0, _ => .error "pattern too long for compile fuel"
  | _ + 1, [] => .ok []
  | fuel + 1, c :: rest =>
    if c = '*' then (parseGlobF fuel rest).map (fun ts => .anySeq :: ts)
    else if c = '?' then (parseGlobF fuel rest).map (fun ts => .anyOne :: ts)
    else if c = '[' then
      match parseClass rest with
      | .error e => .error e
      | .ok (neg, items, rest2) =>
        (parseGlobF fuel rest2).map (fun ts => .cls neg items :: ts)
    else if c = '\\' then
      match rest with
      | [] => .error "trailing backslash in pattern"
      | c2 :: rest2 => (parseGlobF fuel rest2).map (fun ts => .lit c2 :: ts)
    else (parseGlobF fuel rest).map (fun ts => .lit c :: ts)

/-- Compile a pattern (toRegexp followed by the regexp compiler). -/
def compile (pattern : List Char) : Except String (List GTok) :=
  parseGlobF (pattern.length + 1) pattern

/-- The anchored-regex matcher, fuelled (every recursive call shrinks
tokens + path, so fuel = tokens + path length + 1 suffices): a literal
or class consumes exactly one matching character, any-character ('.')
consumes any one non-newline character, any-sequence ('.*') tries
consuming nothing or one non-newline character. -/
def matchToksF : Nat → List GTok → List Char → Bool
  | 0, _, _ => false
  | _ + 1, [], [] => true
  | _ + 1, [], _ :: _ => false
  | _ + 1, .lit _ :: _, [] => false
  | fuel + 1, .lit c :: ts, x :: xs => x = c && matchToksF fuel ts xs
  | _ + 1, .anyOne :: _, [] => false
  | fuel + 1, .anyOne :: ts, x :: xs => !(x = '\n') && matchToksF fuel ts xs
  | _ + 1, .cls _ _ :: _, [] => false
  | fuel + 1, .cls neg items :: ts, x :: xs =>
    clsMatch neg items x && matchToksF fuel ts xs
  | fuel + 1, .anySeq :: ts, [] => matchToksF fuel ts []
  | fuel + 1, .anySeq :: ts, x :: xs =>
    matchToksF fuel ts (x :: xs) || (!(x = '\n') && matchToksF fuel (.anySeq :: ts) xs)

/-- The compiled-pattern matcher with sufficient fuel. -/
def matchToks (toks : List GTok) (path : List Char) : Bool :=
  matchToksF (toks.length + path.length + 1) toks path

/-- NewMatcher: compile every pattern, failing on the first bad one. -/
def NewMatcher (patterns : List (List Char)) : Except String (List (List GTok)) :=
  patterns.mapM compile

/-- MatchAny: whether any compiled pattern matches the path. -/
def MatchAny (matchers : List (List GTok)) (path : List Char) : Bool :=
  matchers.any (fun toks => matchToks toks path)

/-- Filter.match: included iff no include filtering was requested or
some include pattern matches; excluded iff some exclude pattern
matches; excludes always win. -/
def filterMatch (includes excludes : List (List GTok)) (hasIncludes : Bool)
    (path : List Char) : Bool :=
  (!hasIncludes || MatchAny includes path) && !(MatchAny excludes path)

/-- normalizePatterns: strip one leading "./" from a pattern. -/
def normalizePattern (p : List Char) : List Char :=
  match p with
  | '.' :: '/' :: rest => rest
  | _ => p

/-- validatePath on cleaned paths: reject absolute paths and paths
whose cleaned form starts with "..". -/
def validatePath (p : List Char) : Except String Unit :=
  if p.take 1 = ['/'] then .error "absolute paths are not allowed"
  else if p.take 2 = ['.', '.'] then
    .error "paths must be within the current working directory"
  else .ok ()

/-- A positional argument: a plain file, or a directory whose recursive
walk visits the given (path, isDir) entries in order. -/
inductive FsArg where
  | file (path : List Char)
  | dir (path : List Char) (entries : List (List Char × Bool))

def FsArg.path : FsArg → List Char
  | .file p => p
  | .dir p _ => p

/-- walkDir: visit entries in order, skip directories, count every file
into the total, keep the files the filter accepts. -/
def walkDirModel (includes excludes : List (List GTok)) (hasIncludes : Bool) :
    List (List Char × Bool) → List (List Char) × Nat
  | [] => ([], 0)
  | (_, true) :: rest => walkDirModel includes excludes hasIncludes rest
  | (p, false) :: rest =>
    let (fs, total) := walkDirModel includes excludes hasIncludes rest
    (if filterMatch includes excludes hasIncludes p then p :: fs else fs, total + 1)

/-- Deduplicated append of walked files into the running result, in
encounter order ("seen" map). -/
def dedupAppend (seen files : List (List Char)) :
    List (List Char) → List (List Char) × List (List Char)
  | [] => (seen, files)
  | p :: ps =>
    if p ∈ seen then dedupAppend seen files ps
    else dedupAppend (p :: seen) (files ++ [p]) ps

/-- The main Resolve loop over the positional arguments: a file
argument is counted and added directly, bypassing the filter (dedup
aside); a directory argument is walked and filtered. -/
def resolveLoop (includes excludes : List (List GTok)) (hasIncludes : Bool) :
    List FsArg → List (List Char) → List (List Char) → Nat →
      List (List Char) × Nat
  | [], _, files, scanned => (files, scanned)
  | .file p :: rest, seen, files, scanned =>
    if p ∈ seen then resolveLoop includes excludes hasIncludes rest seen files (scanned + 1)
    else resolveLoop includes excludes hasIncludes rest (p :: seen) (files ++ [p]) (scanned + 1)
  | .dir _ entries :: rest, seen, files, scanned =>
    let (walked, total) := walkDirModel includes excludes hasIncludes entries
    let (seen2, files2) := dedupAppend seen files walked
    resolveLoop includes excludes hasIncludes rest seen2 files2 (scanned + total)

/-- Validate every positional argument, failing on the first bad one. -/
def validateArgs : List FsArg → Except String Unit
  | [] => .ok ()
  | a :: rest =>
    match validatePath a.path with
    | .error e => .error e
    | .ok _ => validateArgs rest

/-- Resolve: validate arguments, normalize and compile the patterns,
run the loop, and fail when nothing matched. -/
def Resolve (args : List FsArg) (includes excludes : List (List Char))
    (hasIncludes : Bool) : Except String (List (List Char) × Nat) :=
  match validateArgs args with
  | .error e => .error e
  | .ok _ =>
    match NewMatcher (includes.map normalizePattern) with
    | .error e => .error e
    | .ok inc =>
      match NewMatcher (excludes.map normalizePattern) with
      | .error e => .error e
      | .ok exc =>
        let (files, scanned) := resolveLoop inc exc hasIncludes args [] [] 0
        if files = [] then .error "no files matched the provided patterns"
        else .ok (files, scanned)

/-- The files a walk keeps are exactly the non-directory entries the
filter accepts, in walk order. -/
theorem walkDirModel_files (includes excludes : List (List GTok)) (hI : Bool) :
    ∀ entries, (walkDirModel includes excludes hI entries).1 =
      (entries.filter (fun e => !e.2 && filterMatch includes excludes hI e.1)).map
        (fun e => e.1) := by
  intro entries
  induction entries with
  | nil => rfl
  | cons e rest ih =>
    obtain ⟨p, d⟩ := e
    cases d with
    | true =>
      rw [walkDirModel]
      simp [ih]
    | false =>
      rw [walkDirModel]
      by_cases hm : filterMatch includes excludes hI p
      · simp [hm, ih]
      · simp [hm, ih]

/-- dedupAppend only appends to the running file list. -/
theorem dedupAppend_mono :
    ∀ walked seen files, ∃ extra,
      (dedupAppend seen files walked).2 = files ++ extra := by
  intro walked
  induction walked with
  | nil => intro seen files; exact ⟨[], by simp [dedupAppend]⟩
  | cons p ps ih =>
    intro seen files
    rw [dedupAppend]
    by_cases hp : p ∈ seen
    · rw [if_pos hp]
      exact ih seen files
    · rw [if_neg hp]
      obtain ⟨extra, hx⟩ := ih (p :: seen) (files ++ [p])
      exact ⟨[p] ++ extra, by rw [hx, List.append_assoc]⟩

/-- dedupAppend keeps the invariant that everything seen is in the
file list. -/
theorem dedupAppend_inv :
    ∀ walked seen files, (∀ q, q ∈ seen → q ∈ files) →
      ∀ q, q ∈ (dedupAppend seen files walked).1 →
        q ∈ (dedupAppend seen files walked).2 := by
  intro walked
  induction walked with
  | nil =>
    intro seen files hinv q hq
    rw [dedupAppend] at hq ⊢
    exact hinv q hq
  | cons p ps ih =>
    intro seen files hinv q hq
    rw [dedupAppend] at hq ⊢
    by_cases hp : p ∈ seen
    · rw [if_pos hp] at hq ⊢
      exact ih seen files hinv q hq
    · rw [if_neg hp] at hq ⊢
      refine ih (p :: seen) (files ++ [p]) ?_ q hq
      intro r hr
      rcases List.mem_cons.mp hr with rfl | hr2
      · simp
      · exact List.mem_append_left _ (hinv r hr2)

/-- The resolve loop only appends to the running file list. -/
theorem resolveLoop_mono (includes excludes : List (List GTok)) (hI : Bool) :
    ∀ args seen files scanned, ∃ extra,
      (resolveLoop includes excludes hI args seen files scanned).1 = files ++ extra := by
  intro args
  induction args with
  | nil => intro seen files scanned; exact ⟨[], by simp [resolveLoop]⟩
  | cons a rest ih =>
    intro seen files scanned
    match a with
    | .file p =>
      rw [resolveLoop]
      by_cases hp : p ∈ seen
      · rw [if_pos hp]
        exact ih seen files _
      · rw [if_neg hp]
        obtain ⟨extra, hx⟩ := ih (p :: seen) (files ++ [p]) _
        exact ⟨[p] ++ extra, by rw [hx, List.append_assoc]⟩
    | .dir d entries =>
      rw [resolveLoop]
      obtain ⟨e1, h1⟩ := dedupAppend_mono
        (walkDirModel includes excludes hI entries).1 seen files
      obtain ⟨e2, h2⟩ := ih (dedupAppend seen files (walkDirModel includes excludes hI entries).1).1
        (dedupAppend seen files (walkDirModel includes excludes hI entries).1).2 _
      refine ⟨e1 ++ e2, ?_⟩
      rw [h2, h1, List.append_assoc]

/-- An explicit file argument always ends up in the resolved list,
whatever the filters say. -/
theorem resolveLoop_file_mem (includes excludes : List (List GTok)) (hI : Bool) :
    ∀ args seen files scanned p, FsArg.file p ∈ args →
      (∀ q, q ∈ seen → q ∈ files) →
      p ∈ (resolveLoop includes excludes hI args seen files scanned).1 := by
  intro args
  induction args with
  | nil =>
    intro seen files scanned p hmem
    simp at hmem
  | cons a rest ih =>
    intro seen files scanned p hmem hinv
    rcases List.mem_cons.mp hmem with heq | hmem2
    · subst heq
      rw [resolveLoop]
      by_cases hp : p ∈ seen
      · rw [if_pos hp]
        obtain ⟨extra, hx⟩ := resolveLoop_mono includes excludes hI rest seen files (scanned + 1)
        rw [hx]
        exact List.mem_append_left _ (hinv p hp)
      · rw [if_neg hp]
        obtain ⟨extra, hx⟩ :=
          resolveLoop_mono includes excludes hI rest (p :: seen) (files ++ [p]) (scanned + 1)
        rw [hx, List.append_assoc]
        exact List.mem_append_right _ (by simp)
    · match a with
      | .file q =>
        rw [resolveLoop]
        by_cases hq : q ∈ seen
        · rw [if_pos hq]
          exact ih seen files _ p hmem2 hinv
        · rw [if_neg hq]
          refine ih (q :: seen) (files ++ [q]) _ p hmem2 ?_
          intro r hr
          rcases List.mem_cons.mp hr with rfl | hr2
          · simp
          · exact List.mem_append_left _ (hinv r hr2)
      | .dir d entries =>
        rw [resolveLoop]
        refine ih _ _ _ p hmem2 ?_
        exact dedupAppend_inv (walkDirModel includes excludes hI entries).1 seen files hinv

/-- C8: resolver filtering.  A file discovered by a directory walk is
kept exactly when (no include filter was requested, or some include
pattern matches it) and no exclude pattern matches it - excludes always
win - while a file given as an explicit positional argument is added to
the result unconditionally, bypassing both filters. -/
theorem claim_C8_resolver_filtering (includes excludes : List (List GTok)) (hI : Bool) :
    (∀ entries, (walkDirModel includes excludes hI entries).1 =
      (entries.filter (fun e => !e.2 && filterMatch includes excludes hI e.1)).map
        (fun e => e.1)) ∧
    (∀ p, filterMatch includes excludes hI p = true ↔
      ((hI = false ∨ MatchAny includes p = true) ∧ ¬MatchAny excludes p = true)) ∧
    (∀ args incPats excPats inc2 exc2 p,
      validateArgs args = .ok () →
      NewMatcher (incPats.map normalizePattern) = .ok inc2 →
      NewMatcher (excPats.map normalizePattern) = .ok exc2 →
      FsArg.file p ∈ args →
      ∃ files scanned, Resolve args incPats excPats hI = .ok (files, scanned) ∧
        p ∈ files) := by
  refine ⟨walkDirModel_files includes excludes hI, ?_, ?_⟩
  · intro p
    rw [filterMatch]
    cases hI <;> cases hmi : MatchAny includes p <;> cases hme : MatchAny excludes p <;>
      simp
  · intro args incPats excPats inc2 exc2 p hval hinc hexc hmem
    have hp : p ∈ (resolveLoop inc2 exc2 hI args [] [] 0).1 :=
      resolveLoop_file_mem inc2 exc2 hI args [] [] 0 p hmem (by intro q hq; simp at hq)
    refine ⟨(resolveLoop inc2 exc2 hI args [] [] 0).1,
      (resolveLoop inc2 exc2 hI args [] [] 0).2, ?_, hp⟩
    rw [Resolve, hval, hinc, hexc]
    have hne : (resolveLoop inc2 exc2 hI args [] [] 0).1 ≠ [] := by
      intro hcon
      rw [hcon] at hp
      simp at hp
    simp only [if_neg hne]

/-- C8 witness: a walk keeps src files matching the include and drops
the vendor path the exclude matches; an explicitly named file that the
exclude pattern matches is still resolved. -/
theorem claim_C8_resolver_filtering_witness :
    ∃ inc2 exc2 : List (List GTok),
      NewMatcher (["*.go".toList].map normalizePattern) = .ok inc2 ∧
      NewMatcher (["vendor/*".toList].map normalizePattern) = .ok exc2 ∧
      (walkDirModel inc2 exc2 true
          [("src/main.go".toList, false), ("vendor".toList, true),
            ("vendor/lib/dep.go".toList, false)]).1 = ["src/main.go".toList] ∧
      (∃ files scanned,
        Resolve [FsArg.file "vendor/keep.go".toList] ["*.go".toList]
            ["vendor/*".toList] true = .ok (files, scanned) ∧
        "vendor/keep.go".toList ∈ files) := by
  have hinc : NewMatcher (["*.go".toList].map normalizePattern)
      = .ok [[GTok.anySeq, .lit '.', .lit 'g', .lit 'o']] := by decide
  have hexc : NewMatcher (["vendor/*".toList].map normalizePattern)
      = .ok [[GTok.lit 'v', .lit 'e', .lit 'n', .lit 'd', .lit 'o', .lit 'r',
        .lit '/', .anySeq]] := by decide
  refine ⟨_, _, hinc, hexc, ?_, ?_⟩
  · decide
  · exact (claim_C8_resolver_filtering [] [] true).2.2
      [FsArg.file "vendor/keep.go".toList] ["*.go".toList] ["vendor/*".toList]
      _ _ "vendor/keep.go".toList (by decide) hinc hexc (by simp)

/- ## Output path derivation (src/unnamed/part_018 outputPath,
src/unnamed/part_019 outputPath)

outputPath(filename) = filepath.Join(Dir(trimmed), Base(trimmed) + ext)
where on decrypt trimmed = TrimSuffix(filename, encrypt-ext) and ext is
the decrypt-ext (default empty).  Dir, Base and Join are modelled for
cleaned relative paths (the resolver hands outputPath cleaned paths):
Dir/Base split at the last '/', and Join("." , b) = b, Join(d, b) =
d/b, mirroring filepath's behaviour on such inputs. -/

/-- Split a path around its last '/': some (before, after), or none
when it has no slash. -/
def splitLastSlash : List Char → Option (List Char × List Char)
  | [] => none
  | c :: rest =>
    match splitLastSlash rest with
    | some (d, b) => some (c :: d, b)
    | none => if c = '/' then some ([], rest) else none

/-- filepath.Dir for cleaned relative paths. -/
def dirOf (p : List Char) : List Char :=
  match splitLastSlash p with
  | some (d, _) => d
  | none => ['.']

/-- filepath.Base for cleaned relative paths. -/
def baseOf (p : List Char) : List Char :=
  match splitLastSlash p with
  | some (_, b) => b
  | none => p

/-- filepath.Join of a directory and a base name (cleaned inputs). -/
def joinPath (d b : List Char) : List Char :=
  if d = ['.'] then b else d ++ '/' :: b

/-- strings.TrimSuffix. -/
def trimSuffixL (s suffix : List Char) : List Char :=
  if suffix.isSuffixOf s then s.take (s.length - suffix.length) else s

/-- outputPath: on decrypt, strip the encrypt suffix and append the
decrypt suffix; on encrypt, append the encrypt suffix. -/
def outputPath (decrypt : Bool) (encExt decExt filename : List Char) : List Char :=
  if decrypt then
    joinPath (dirOf (trimSuffixL filename encExt))
      (baseOf (trimSuffixL filename encExt) ++ decExt)
  else
    joinPath (dirOf filename) (baseOf filename ++ encExt)

/-- A cleaned relative path, as its nonempty list of segments. -/
def joinSegs : List (List Char) → List Char
  | [] => []
  | [s] => s
  | s :: rest => s ++ '/' :: joinSegs rest

theorem joinSegs_cons (s : List Char) (rest : List (List Char)) (h : rest ≠ []) :
    joinSegs (s :: rest) = s ++ '/' :: joinSegs rest := by
  match rest with
  | [] => exact absurd rfl h
  | r :: rs => rfl

theorem splitLastSlash_no_slash (s : List Char) (h : '/' ∉ s) :
    splitLastSlash s = none := by
  induction s with
  | nil => rfl
  | cons c cs ih =>
    rw [splitLastSlash]
    rw [ih (fun hc => h (List.mem_cons_of_mem c hc))]
    rw [if_neg (fun hc => h (by rw [← hc]; exact List.mem_cons_self c cs))]

theorem splitLastSlash_eq (R : List Char) :
    ∀ d b, splitLastSlash R = some (d, b) → R = d ++ '/' :: b := by
  induction R with
  | nil => intro d b h; simp [splitLastSlash] at h
  | cons c cs ih =>
    intro d b h
    rw [splitLastSlash] at h
    cases hcs : splitLastSlash cs with
    | some p =>
      obtain ⟨d2, b2⟩ := p
      rw [hcs] at h
      simp only [Option.some.injEq, Prod.mk.injEq] at h
      obtain ⟨h1, h2⟩ := h
      rw [← h1, ← h2, List.cons_append]
      rw [← ih d2 b2 hcs]
    | none =>
      rw [hcs] at h
      by_cases hc : c = '/'
      · rw [if_pos hc] at h
        simp only [Option.some.injEq, Prod.mk.injEq] at h
        obtain ⟨h1, h2⟩ := h
        rw [← h1, hc, ← h2]
        rfl
      · rw [if_neg hc] at h
        simp at h

theorem splitLastSlash_append_some (s R d2 b2 : List Char)
    (h : splitLastSlash R = some (d2, b2)) :
    splitLastSlash (s ++ '/' :: R) = some (s ++ '/' :: d2, b2) := by
  induction s with
  | nil =>
    rw [List.nil_append, splitLastSlash, h]
    rfl
  | cons c cs ih =>
    rw [List.cons_append, splitLastSlash, ih]
    rfl

theorem splitLastSlash_append_none (s R : List Char)
    (h : splitLastSlash R = none) :
    splitLastSlash (s ++ '/' :: R) = some (s, R) := by
  induction s with
  | nil =>
    rw [List.nil_append, splitLastSlash, h, if_pos rfl]
  | cons c cs ih =>
    rw [List.cons_append, splitLastSlash, ih]

theorem dirOf_eq (p d b : List Char) (h : splitLastSlash p = some (d, b)) :
    dirOf p = d := by
  rw [dirOf, h]

theorem baseOf_eq (p d b : List Char) (h : splitLastSlash p = some (d, b)) :
    baseOf p = b := by
  rw [baseOf, h]

/-- Join inverts the Dir/Base split on cleaned relative paths. -/
theorem joinPath_dir_base :
    ∀ segs : List (List Char), segs ≠ [] →
      (∀ s ∈ segs, s ≠ [] ∧ '/' ∉ s ∧ s ≠ ['.']) →
      joinPath (dirOf (joinSegs segs)) (baseOf (joinSegs segs)) = joinSegs segs := by
  intro segs
  induction segs with
  | nil => intro h; exact absurd rfl h
  | cons s rest ih =>
    intro _ hseg
    by_cases hrest : rest = []
    · subst hrest
      have hs := hseg s (by simp)
      have hnone : splitLastSlash (joinSegs [s]) = none :=
        splitLastSlash_no_slash s hs.2.1
      rw [dirOf, baseOf, hnone]
      rw [joinPath, if_pos rfl]
    · rw [joinSegs_cons s rest hrest]
      cases hR : splitLastSlash (joinSegs rest) with
      | none =>
        have hsplit := splitLastSlash_append_none s (joinSegs rest) hR
        rw [dirOf_eq _ _ _ hsplit, baseOf_eq _ _ _ hsplit]
        have hs := hseg s (by simp)
        rw [joinPath, if_neg hs.2.2]
      | some p =>
        obtain ⟨d2, b2⟩ := p
        have hsplit := splitLastSlash_append_some s (joinSegs rest) d2 b2 hR
        rw [dirOf_eq _ _ _ hsplit, baseOf_eq _ _ _ hsplit]
        have hih := ih hrest (fun t ht => hseg t (List.mem_cons_of_mem s ht))
        rw [dirOf_eq _ _ _ hR, baseOf_eq _ _ _ hR] at hih
        have hReq : joinSegs rest = d2 ++ '/' :: b2 := splitLastSlash_eq _ d2 b2 hR
        have hd2 : d2 ≠ ['.'] := by
          intro hcon
          rw [joinPath, if_pos hcon] at hih
          rw [hih] at hReq
          have hlen := congrArg List.length hReq
          simp [List.length_append] at hlen
          omega
        rw [joinPath, if_neg hd2] at hih
        rw [joinPath]
        rw [if_neg (by
          intro hcon
          have hlen := congrArg List.length hcon
          have hs := hseg s (by simp)
          have hslen : 0 < s.length := List.length_pos.mpr hs.1
          simp [List.length_append] at hlen
          omega)]
        rw [List.append_assoc, List.cons_append]
        rw [show d2 ++ '/' :: b2 = joinSegs rest from hReq.symm] at hih ⊢

/-- C10: decrypt output-path edge case.  With the default empty
decrypt suffix, when a (cleaned, relative) input path does not end in
the configured encrypt suffix, the derived output path equals the
input path itself, so the decrypted plaintext atomically replaces the
encrypted input file in place (the rename target is the input path). -/
theorem claim_C10_decrypt_output_inplace (encExt f : List Char)
    (segs : List (List Char)) (hsegs : segs ≠ [])
    (hseg : ∀ s ∈ segs, s ≠ [] ∧ '/' ∉ s ∧ s ≠ ['.'])
    (hf : f = joinSegs segs)
    (hnosuf : ¬encExt.isSuffixOf f = true) :
    outputPath true encExt [] f = f := by
  rw [outputPath, if_pos rfl]
  rw [show trimSuffixL f encExt = f from by rw [trimSuffixL, if_neg hnosuf]]
  rw [List.append_nil]
  rw [hf]
  exact joinPath_dir_base segs hsegs hseg

/-- C10 witness: decrypting "dir/data.txt" (which does not end in
".enc") with the default empty decrypt suffix writes back to
"dir/data.txt" itself. -/
theorem claim_C10_decrypt_output_inplace_witness :
    outputPath true ".enc".toList [] "dir/data.txt".toList = "dir/data.txt".toList :=
  claim_C10_decrypt_output_inplace ".enc".toList "dir/data.txt".toList
    ["dir".toList, "data.txt".toList] (by decide) (by decide) (by decide) (by decide)

end Gonc
